import Mathlib

set_option maxHeartbeats 1000000

namespace AineDRL

/-! Shallow embedding of the aine-drl core: the circular experience trajectory
(`aine_drl/experience/trajectory.py`, `aine_drl/trajectory/onpolicy_trajectory.py`),
the `Clock` (`aine_drl/drl_util/clock.py`), and the recurrent PPO training
pipeline (`aine_drl/agent/ppo/recurrent_ppo.py`). -/

/-- One step of interaction: observation, action, reward, terminated flag and the
next observation, mirroring the `Experience` record consumed by `Trajectory.add`. -/
structure Experience (α : Type) where
  state : α
  action : ℕ
  reward : ℤ
  terminated : Bool
  next_state : α
deriving DecidableEq, Repr

/-- State of the circular trajectory buffer of `trajectory.py`: field arenas of
length `max_count`, a write cursor `recent_idx` (initially `-1`), the stored-step
counter `_count`, and the per-environment side buffer `next_state_buffer`. -/
structure Traj (α : Type) where
  env_count : ℕ
  max_count : ℕ
  count : ℕ
  recent_idx : ℤ
  states : List (Option α)
  actions : List (Option ℕ)
  rewards : List (Option ℤ)
  terminateds : List (Option Bool)
  next_state_buffer : List (Option α)
deriving DecidableEq, Repr

/-- `Trajectory.reset`: zero the counter, set the cursor to `-1` and clear all arenas. -/
def Traj.reset {α : Type} (t : Traj α) : Traj α :=
  { t with
    count := 0
    recent_idx := -1
    states := List.replicate t.max_count none
    actions := List.replicate t.max_count none
    rewards := List.replicate t.max_count none
    terminateds := List.replicate t.max_count none
    next_state_buffer := List.replicate t.env_count none }

/-- `Trajectory.__init__`: `max_count = env_count * max_count_per_env`, then `reset`. -/
def Traj.init (α : Type) (max_count_per_env env_count : ℕ) : Traj α :=
  Traj.reset
    { env_count := env_count
      max_count := env_count * max_count_per_env
      count := 0
      recent_idx := -1
      states := []
      actions := []
      rewards := []
      terminateds := []
      next_state_buffer := [] }

/-- One iteration of the loop body of `Trajectory.add`: advance the cursor modulo
capacity, bump the capped counter, write the experience fields at the cursor and
store the next observation in slot `i` of the side buffer. -/
def Traj.addOne {α : Type} (t : Traj α) (i : ℕ) (ex : Experience α) : Traj α :=
  let r : ℤ := (t.recent_idx + 1) % (t.max_count : ℤ)
  { t with
    recent_idx := r
    count := min (t.count + 1) t.max_count
    states := t.states.set r.toNat (some ex.state)
    actions := t.actions.set r.toNat (some ex.action)
    rewards := t.rewards.set r.toNat (some ex.reward)
    terminateds := t.terminateds.set r.toNat (some ex.terminated)
    next_state_buffer := t.next_state_buffer.set i (some ex.next_state) }

/-- The write loop of `Trajectory.add` (after the length assertion has passed):
`for i, ex in enumerate(experiences): ...`. -/
def Traj.addCore {α : Type} (t : Traj α) (es : List (Experience α)) : Traj α :=
  es.enum.foldl (fun acc p => acc.addOne p.1 p.2) t

/-- `Trajectory.add` on a list argument: the assertion
`assert len(experiences) == self.env_count` fires before any write, so on failure
the buffer is returned unchanged together with the assertion message. -/
def Traj.add {α : Type} (t : Traj α) (es : List (Experience α)) :
    Traj α × Option String :=
  if es.length = t.env_count then (t.addCore es, none)
  else (t, some "AssertionError: len(experiences) == self.env_count")

/-- `Trajectory.add` on a single bare `Experience`: the code wraps it as a
one-element list before the assertion. -/
def Traj.addSingle {α : Type} (t : Traj α) (e : Experience α) : Traj α × Option String :=
  t.add [e]

/-- `Trajectory._sample_next_states`: successor index `(i + env_count) % max_count`;
the side buffer replaces the arena entry exactly when
`recent_idx < next_idx <= recent_idx + env_count` (plain integer comparison, as in
the numpy code), with side slot `next_idx - recent_idx - 1`. -/
def Traj.sampleNextStates {α : Type} (t : Traj α) (batch_idxs : List ℕ) :
    List (Option α) :=
  batch_idxs.map fun i =>
    let ni : ℕ := (i + t.env_count) % t.max_count
    if t.recent_idx < (ni : ℤ) ∧ (ni : ℤ) ≤ t.recent_idx + (t.env_count : ℤ) then
      t.next_state_buffer.getD ((ni : ℤ) - t.recent_idx - 1).toNat none
    else
      t.states.getD ni none

/-- The flat batch returned by `OnPolicyTrajectory.sample`. -/
structure ExperienceBatch (α : Type) where
  states : List (Option α)
  actions : List (Option ℕ)
  next_states : List (Option α)
  rewards : List (Option ℤ)
  terminateds : List (Option Bool)
deriving DecidableEq, Repr

/-- `OnPolicyTrajectory.sample`: temporarily extend the state arena with the side
buffer, take `states[:-num_envs]` as current states and `states[num_envs:]` as next
states, then `reset` (on-policy discard). -/
def Traj.sampleOnPolicy {α : Type} (t : Traj α) : ExperienceBatch α × Traj α :=
  let extended := t.states ++ t.next_state_buffer
  ({ states := extended.take (extended.length - t.env_count)
     actions := t.actions
     next_states := extended.drop t.env_count
     rewards := t.rewards
     terminateds := t.terminateds }, t.reset)

/-- Experience group at time step `t` for the two-environment test scenario:
environment `i` observes `10*t + i` and its successor observation is `10*(t+1) + i`. -/
def exG (t : ℕ) : List (Experience ℕ) :=
  [⟨10 * t, 0, 0, false, 10 * (t + 1)⟩,
   ⟨10 * t + 1, 0, 0, false, 10 * (t + 1) + 1⟩]

/-- A full buffer with `num_envs = 2`, two steps per environment (capacity 4):
after two add calls the cursor sits at the last arena slot. -/
def trajC1 : Traj ℕ :=
  ((Traj.init ℕ 2 2).addCore (exG 1)).addCore (exG 2)

lemma addOne_count {α : Type} (t : Traj α) (i : ℕ) (ex : Experience α) :
    (t.addOne i ex).count = min (t.count + 1) t.max_count ∧
    (t.addOne i ex).max_count = t.max_count ∧
    (t.addOne i ex).env_count = t.env_count := by
  refine ⟨?_, rfl, rfl⟩
  simp [Traj.addOne]

lemma foldl_addOne_count {α : Type} :
    ∀ (ps : List (ℕ × Experience α)) (t : Traj α), t.count ≤ t.max_count →
      ((ps.foldl (fun acc p => acc.addOne p.1 p.2) t).count
          = min (t.count + ps.length) t.max_count ∧
        (ps.foldl (fun acc p => acc.addOne p.1 p.2) t).max_count = t.max_count ∧
        (ps.foldl (fun acc p => acc.addOne p.1 p.2) t).env_count = t.env_count)
  | [], t, h => by
      simpa using (Nat.min_eq_left h).symm
  | p :: ps, t, h => by
      obtain ⟨h1, h2, h3⟩ := addOne_count t p.1 p.2
      have hle : (t.addOne p.1 p.2).count ≤ (t.addOne p.1 p.2).max_count := by
        rw [h1, h2]; exact Nat.min_le_right _ _
      obtain ⟨ih1, ih2, ih3⟩ := foldl_addOne_count ps (t.addOne p.1 p.2) hle
      simp only [List.foldl_cons]
      refine ⟨?_, by rw [ih2, h2], by rw [ih3, h3]⟩
      rw [ih1, h1, h2]
      simp only [List.length_cons]
      omega

lemma addCore_count {α : Type} (t : Traj α) (es : List (Experience α))
    (h : t.count ≤ t.max_count) :
    (t.addCore es).count = min (t.count + es.length) t.max_count := by
  have := (foldl_addOne_count (α := α) es.enum t h).1
  rwa [List.enum_length] at this

/-- C1: `_sample_next_states` is supposed to return, for every stored step of a full
buffer, the true successor observation, using the side buffer when the successor
index lies in the window `(recent, recent + num_envs]` modulo capacity. On the full
buffer `trajC1` (capacity 4, `num_envs = 2`, observations 10,11 then 20,21, side
buffer 30,31, cursor at slot 3) the code compares without the modulo reduction, so
for the two most recent steps it returns the oldest arena entries 10,11 instead of
the side-buffer successors 30,31. -/
theorem claim_C1_sample_next_states_bug :
    trajC1.count = trajC1.max_count ∧
    trajC1.recent_idx = 3 ∧
    trajC1.next_state_buffer = [some 30, some 31] ∧
    trajC1.sampleNextStates [0, 1, 2, 3] = [some 20, some 21, some 10, some 11] ∧
    trajC1.sampleNextStates [0, 1, 2, 3] ≠ [some 20, some 21, some 30, some 31] := by
  decide

/-- C8: `Trajectory.add` rejects an experience group whose size differs from the
environment count with an assertion error raised before any write (the buffer is
returned unchanged), accepts a matching group, and a single bare experience is
wrapped as a one-element list, hence accepted exactly when the environment count
is 1. -/
theorem claim_C8_add_assertion {α : Type} (t : Traj α) (es : List (Experience α))
    (e : Experience α) :
    (es.length ≠ t.env_count →
      t.add es = (t, some "AssertionError: len(experiences) == self.env_count")) ∧
    (es.length = t.env_count → t.add es = (t.addCore es, none)) ∧
    (t.env_count = 1 → t.addSingle e = (t.addCore [e], none)) ∧
    (t.env_count ≠ 1 →
      t.addSingle e = (t, some "AssertionError: len(experiences) == self.env_count")) := by
  refine ⟨fun h => by simp [Traj.add, h], fun h => by simp [Traj.add, h],
    fun h => by simp [Traj.addSingle, Traj.add, h],
    fun h => by
      simp only [Traj.addSingle, Traj.add, List.length_singleton]
      rw [if_neg (by omega)]⟩

theorem claim_C8_witness :
    (Traj.init ℕ 2 2).add [⟨0, 0, 0, false, 1⟩]
        = (Traj.init ℕ 2 2, some "AssertionError: len(experiences) == self.env_count") ∧
    (Traj.init ℕ 2 1).addSingle ⟨0, 0, 0, false, 1⟩
        = ((Traj.init ℕ 2 1).addCore [⟨0, 0, 0, false, 1⟩], none) :=
  ⟨(claim_C8_add_assertion (Traj.init ℕ 2 2) [⟨0, 0, 0, false, 1⟩]
      ⟨0, 0, 0, false, 1⟩).1 (by decide),
   (claim_C8_add_assertion (Traj.init ℕ 2 1) [] ⟨0, 0, 0, false, 1⟩).2.2.1 (by decide)⟩

/-- The capacity-6 scenario of C2: `num_envs = 2`, `training_freq = 3`, three add
calls with monotonically increasing observations. -/
def trajC2 : Traj ℕ :=
  (((Traj.init ℕ 3 2).addCore (exG 1)).addCore (exG 2)).addCore (exG 3)

/-- The refill of the same buffer after the first drain, with three fresh groups. -/
def trajC2refill : Traj ℕ :=
  (((trajC2.sampleOnPolicy.2).addCore (exG 4)).addCore (exG 5)).addCore (exG 6)

/-- C2: each add call with a full environment group increases `count` by exactly
`env_count` until capacity and never beyond it; on the capacity-6 scenario
(`num_envs = 2`, `training_freq = 3`, 3 add calls) `sample` returns exactly
`capacity` records whose next states are the true successor observations (the most
recent group's successors coming from the side buffer), immediately afterwards
`count = 0`, and no drained experience reappears in the next drain. -/
theorem claim_C2_fill_drain_cycle {α : Type} (t : Traj α) (es : List (Experience α))
    (h1 : es.length = t.env_count) (h2 : t.count ≤ t.max_count) :
    ((t.addCore es).count = min (t.count + t.env_count) t.max_count ∧
      (t.addCore es).count ≤ t.max_count ∧
      (t.count + t.env_count ≤ t.max_count →
        (t.addCore es).count = t.count + t.env_count)) ∧
    ((Traj.init ℕ 3 2).count = 0 ∧
      ((Traj.init ℕ 3 2).addCore (exG 1)).count = 2 ∧
      (((Traj.init ℕ 3 2).addCore (exG 1)).addCore (exG 2)).count = 4 ∧
      trajC2.count = 6 ∧ trajC2.max_count = 6 ∧
      trajC2.sampleOnPolicy.1.states
        = [some 10, some 11, some 20, some 21, some 30, some 31] ∧
      trajC2.sampleOnPolicy.1.next_states
        = [some 20, some 21, some 30, some 31, some 40, some 41] ∧
      trajC2.sampleOnPolicy.1.states.length = 6 ∧
      trajC2.sampleOnPolicy.2.count = 0 ∧
      trajC2refill.sampleOnPolicy.1.states
        = [some 40, some 41, some 50, some 51, some 60, some 61] ∧
      (∀ x ∈ trajC2.sampleOnPolicy.1.states,
        x ∉ trajC2refill.sampleOnPolicy.1.states)) := by
  refine ⟨?_, by decide⟩
  have hc := addCore_count t es h2
  rw [h1] at hc
  exact ⟨hc, by rw [hc]; exact Nat.min_le_right _ _, fun h3 => by rw [hc]; omega⟩

theorem claim_C2_witness :
    ((Traj.init ℕ 3 2).addCore (exG 1)).count = min ((Traj.init ℕ 3 2).count + 2) 6 :=
  by
    have h := ((claim_C2_fill_drain_cycle (Traj.init ℕ 3 2) (exG 1)
      (by decide) (by decide)).1).1
    simpa using h

/-- Counter state of `Clock` (`clock.py`); the wall-clock fields are omitted as
they are not part of the serialized record. -/
structure Clock where
  num_envs : ℕ
  global_time_step : ℤ
  episode : ℤ
  episode_len : ℤ
  training_step : ℤ
deriving DecidableEq, Repr

/-- The flat key-value record produced by `Clock.state_dict`. -/
structure ClockStateDict where
  global_time_step : ℤ
  episode : ℤ
  episode_len : ℤ
  training_step : ℤ
deriving DecidableEq, Repr

/-- `Clock.state_dict`: serialize the four counters. -/
def Clock.state_dict (c : Clock) : ClockStateDict :=
  ⟨c.global_time_step, c.episode, c.episode_len, c.training_step⟩

/-- `Clock.load_state_dict`: restore the four counters; `num_envs` is untouched. -/
def Clock.load_state_dict (c : Clock) (sd : ClockStateDict) : Clock :=
  { c with
    global_time_step := sd.global_time_step
    episode := sd.episode
    episode_len := sd.episode_len
    training_step := sd.training_step }

/-- `Clock.tick_gloabl_time_step`: one environment step advances the global counter
by `num_envs` and the episode length by one. -/
def Clock.tick_global_time_step (c : Clock) : Clock :=
  { c with episode_len := c.episode_len + 1,
           global_time_step := c.global_time_step + c.num_envs }

/-- `Clock.tick_training_step`. -/
def Clock.tick_training_step (c : Clock) : Clock :=
  { c with training_step := c.training_step + 1 }

/-- Modelled from the spec: `check_freq` (in `aine_drl.util`, not under `src/`) —
"Check if the global time step is reached to the frequency. It considers multiple
environments." Since the global counter advances by `num_envs` per tick, the
frequency boundary is detected when the residue falls below `num_envs`. -/
def check_freq (global_time_step frequency : ℤ) (num_envs : ℕ) : Bool :=
  global_time_step % frequency < (num_envs : ℤ)

/-- `Clock.check_global_time_step_freq`: delegate to `check_freq` on the current
global counter. -/
def Clock.check_global_time_step_freq (c : Clock) (f : ℤ) : Bool :=
  check_freq c.global_time_step f c.num_envs

/-- C9: serializing a `Clock` via `state_dict` and restoring it via
`load_state_dict` into any clock with the same environment count is the identity
on the four counters, and `check_global_time_step_freq` returns the same result
for every frequency before and after the round trip. -/
theorem claim_C9_clock_round_trip (c c₂ : Clock) (h : c₂.num_envs = c.num_envs) :
    (c₂.load_state_dict c.state_dict).global_time_step = c.global_time_step ∧
    (c₂.load_state_dict c.state_dict).episode = c.episode ∧
    (c₂.load_state_dict c.state_dict).episode_len = c.episode_len ∧
    (c₂.load_state_dict c.state_dict).training_step = c.training_step ∧
    ∀ f : ℤ, (c₂.load_state_dict c.state_dict).check_global_time_step_freq f
        = c.check_global_time_step_freq f := by
  refine ⟨rfl, rfl, rfl, rfl, fun f => ?_⟩
  simp [Clock.load_state_dict, Clock.state_dict, Clock.check_global_time_step_freq,
    check_freq, h]

theorem claim_C9_witness :
    ((⟨4, 0, 0, 0, 0⟩ : Clock).load_state_dict
        (⟨4, 12, 3, 2, 5⟩ : Clock).state_dict).global_time_step = 12 ∧
    ∀ f : ℤ, ((⟨4, 0, 0, 0, 0⟩ : Clock).load_state_dict
        (⟨4, 12, 3, 2, 5⟩ : Clock).state_dict).check_global_time_step_freq f
      = (⟨4, 12, 3, 2, 5⟩ : Clock).check_global_time_step_freq f :=
  ⟨(claim_C9_clock_round_trip ⟨4, 12, 3, 2, 5⟩ ⟨4, 0, 0, 0, 0⟩ rfl).1,
   (claim_C9_clock_round_trip ⟨4, 12, 3, 2, 5⟩ ⟨4, 0, 0, 0, 0⟩ rfl).2.2.2.2⟩

/-- The temporal-difference residual of §4.2:
`δ_t = r_t + γ · V(s_{t+1}) · (1 − done_t) − V(s_t)`. -/
def gaeDelta (g : ℚ) (v r done : ℕ → ℚ) (t : ℕ) : ℚ :=
  r t + g * v (t + 1) * (1 - done t) - v t

/-- Modelled from the spec: `compute_gae` (in `aine_drl.drl_util`, not under
`src/`) — iterate the time axis backward with terminal seed `A_n = 0` and
`A_t = δ_t + γ · λ · (1 − done_t) · A_{t+1}`; the first argument counts the steps
remaining until the horizon. -/
def gaeAux (g lam : ℚ) (v r done : ℕ → ℚ) : ℕ → ℕ → ℚ
  | 0, _ => 0
  | k + 1, t => gaeDelta g v r done t + g * lam * (1 - done t) * gaeAux g lam v r done k (t + 1)

/-- Advantage at step `t` for horizon `n`. -/
def gaeAdv (g lam : ℚ) (v r done : ℕ → ℚ) (n t : ℕ) : ℚ :=
  gaeAux g lam v r done (n - t) t

/-- Target state value of `_compute_adavantage_target_state_value`:
`target_state_value = advantage + total_state_value[:, :-1]`. -/
def gaeTarget (g lam : ℚ) (v r done : ℕ → ℚ) (n t : ℕ) : ℚ :=
  gaeAdv g lam v r done n t + v t

lemma gaeAux_telescope (r0 : ℚ) (v : ℕ → ℚ) :
    ∀ (k t : ℕ), gaeAux 1 1 v (fun _ => r0) (fun _ => 0) k t
      = k * r0 + v (t + k) - v t
  | 0, t => by simp [gaeAux]
  | k + 1, t => by
      rw [gaeAux, gaeAux_telescope r0 v k (t + 1)]
      have harg : t + 1 + k = t + (k + 1) := by omega
      rw [harg]
      simp [gaeDelta]
      ring

/-- C6: the advantage satisfies the backward GAE recursion with terminal seed
`A_n = 0` and `δ_t = r_t + γ·V(s_{t+1})·(1 − done_t) − V(s_t)`, the returned target
state value is `A_t + V(s_t)`, and for a single environment with constant reward,
no termination and `γ = λ = 1` the advantage telescopes to
`Σ_{k ∈ [t, n)} r + V(s_n) − V(s_t)`. -/
theorem claim_C6_gae (g lam : ℚ) (v r done : ℕ → ℚ) (n t : ℕ) (r0 : ℚ)
    (ht : t < n) :
    gaeAdv g lam v r done n n = 0 ∧
    gaeAdv g lam v r done n t
      = gaeDelta g v r done t + g * lam * (1 - done t) * gaeAdv g lam v r done n (t + 1) ∧
    gaeTarget g lam v r done n t = gaeAdv g lam v r done n t + v t ∧
    gaeAdv 1 1 v (fun _ => r0) (fun _ => 0) n t
      = (∑ _k ∈ Finset.Ico t n, r0) + v n - v t := by
  refine ⟨by simp [gaeAdv, gaeAux], ?_, rfl, ?_⟩
  · have hk : n - t = (n - (t + 1)) + 1 := by omega
    rw [gaeAdv, hk, gaeAux, gaeAdv]
  · have hle : t ≤ n := Nat.le_of_lt ht
    have harg : t + (n - t) = n := by omega
    rw [gaeAdv, gaeAux_telescope r0 v (n - t) t, harg,
      Finset.sum_const, Nat.card_Ico, nsmul_eq_mul]

theorem claim_C6_witness :
    gaeAdv (1/2) (1/3) (fun i => i) (fun _ => 1) (fun _ => 0) 3 1
      = gaeDelta (1/2) (fun i => i) (fun _ => 1) (fun _ => 0) 1
        + (1/2) * (1/3) * (1 - 0) * gaeAdv (1/2) (1/3) (fun i => i) (fun _ => 1) (fun _ => 0) 3 2 ∧
    gaeAdv 1 1 (fun i => i) (fun _ => (2 : ℚ)) (fun _ => 0) 3 1
      = (∑ _k ∈ Finset.Ico 1 3, (2 : ℚ)) + (fun i => (i : ℚ)) 3 - (fun i => (i : ℚ)) 1 :=
  ⟨(claim_C6_gae (1/2) (1/3) (fun i => i) (fun _ => 1) (fun _ => 0) 3 1 7
      (by decide)).2.1,
   (claim_C6_gae 1 1 (fun i => i) (fun _ => 1) (fun _ => 0) 3 1 2
      (by decide)).2.2.2⟩

/-- Machine epsilon of IEEE float32, the value of `torch.finfo(torch.float32).eps`. -/
def float32_eps : ℚ := 1 / 2 ^ 23

/-- The comparison tolerance of `to_batch_sequences`:
`eps = torch.finfo(torch.float32).eps * 2.0`. -/
def mask_tol : ℚ := float32_eps * 2

/-- Value of the padded all-ones probe field at sequence `s`, time `t`: the raw
mask rows are slices of `torch.ones`, so a position holds `1` while `t` is below
the sequence's realized length and the fill value `pv` afterwards
(`pad_sequence(..., padding_value=pv)`). -/
def probeValue (lens : List ℕ) (pv : ℚ) (s t : ℕ) : ℚ :=
  if t < lens.getD s 0 then 1 else pv

/-- The derived validity mask of `to_batch_sequences`:
`(stacked_mask < padding_value - eps) | (stacked_mask > padding_value + eps)`. -/
def maskValue (lens : List ℕ) (pv : ℚ) (s t : ℕ) : Bool :=
  decide (probeValue lens pv s t < pv - mask_tol)
    || decide (probeValue lens pv s t > pv + mask_tol)

/-- C5: for every sequence batch, `mask[s, t] = false` if and only if the padded
all-ones probe field's value at `(s, t)` equals the padding value within tolerance
`2·ε` (twice float32 machine epsilon), for every sequence index and time index. -/
theorem claim_C5_mask_invariant (lens : List ℕ) (pv : ℚ) (s t : ℕ) :
    maskValue lens pv s t = false ↔ |probeValue lens pv s t - pv| ≤ mask_tol := by
  rw [maskValue, Bool.or_eq_false_iff, decide_eq_false_iff_not, decide_eq_false_iff_not,
    abs_le]
  constructor
  · rintro ⟨h1, h2⟩
    constructor <;> [skip; skip] <;> push_neg at h1 h2 <;> linarith
  · rintro ⟨h1, h2⟩
    constructor <;> push_neg <;> linarith

/-- C10: if the configured padding value lies within `2·ε` of `1`, the derived
validity mask is `false` at every position — real steps (probe value `1`) and
padded steps (probe value `pv`) alike — so every position is treated as padding. -/
theorem claim_C10_padding_value_one (lens : List ℕ) (pv : ℚ) (s t : ℕ)
    (h : |pv - 1| ≤ mask_tol) :
    maskValue lens pv s t = false := by
  have htol : (0 : ℚ) ≤ mask_tol := by norm_num [mask_tol, float32_eps]
  rw [abs_le] at h
  rw [maskValue, Bool.or_eq_false_iff, decide_eq_false_iff_not, decide_eq_false_iff_not,
    probeValue]
  split <;> constructor <;> push_neg <;> linarith

theorem claim_C10_witness :
    |(1 : ℚ) - 1| ≤ mask_tol ∧ maskValue [3, 1] 1 0 1 = false ∧ maskValue [3, 1] 1 1 2 = false :=
  ⟨by norm_num [mask_tol, float32_eps],
   claim_C10_padding_value_one [3, 1] 1 0 1 (by norm_num [mask_tol, float32_eps]),
   claim_C10_padding_value_one [3, 1] 1 1 2 (by norm_num [mask_tol, float32_eps])⟩

/-- Recurrent hidden-state bookkeeping of `RecurrentPPO`: the retained next hidden
state and previous terminated flag for the training track and, independently, for
the inference track. Hidden values are indexed by environment and flattened
layer-feature component; terminated flags are the float flags of the previous
step. -/
structure RecurrentPPOState where
  next_hidden_state : ℕ → ℕ → ℚ
  prev_terminated : ℕ → ℚ
  inference_next_hidden_state : ℕ → ℕ → ℚ
  inference_prev_terminated : ℕ → ℚ

/-- The hidden state fed to the network by `select_action_train`:
`current_hidden_state = next_hidden_state * (1.0 - prev_terminated)`. -/
def fedHiddenTrain (a : RecurrentPPOState) : ℕ → ℕ → ℚ :=
  fun e c => a.next_hidden_state e c * (1 - a.prev_terminated e)

/-- `select_action_train`: feed the masked hidden state forward, retain the network
output as the new next hidden state; the first component is the hidden state the
network received. -/
def select_action_train (net : (ℕ → ℕ → ℚ) → (ℕ → ℕ → ℚ)) (a : RecurrentPPOState) :
    (ℕ → ℕ → ℚ) × RecurrentPPOState :=
  (fedHiddenTrain a, { a with next_hidden_state := net (fedHiddenTrain a) })

/-- The hidden state fed to the network by `select_action_inference`:
`inference_current_hidden_state = inference_next_hidden_state * (1.0 - inference_prev_terminated)`. -/
def fedHiddenInference (a : RecurrentPPOState) : ℕ → ℕ → ℚ :=
  fun e c => a.inference_next_hidden_state e c * (1 - a.inference_prev_terminated e)

/-- `select_action_inference`: analogous to the training path on the isolated
inference track. -/
def select_action_inference (net : (ℕ → ℕ → ℚ) → (ℕ → ℕ → ℚ)) (a : RecurrentPPOState) :
    (ℕ → ℕ → ℚ) × RecurrentPPOState :=
  (fedHiddenInference a, { a with inference_next_hidden_state := net (fedHiddenInference a) })

/-- C7: before every forward call of `select_action_train` and
`select_action_inference`, the hidden state passed to the network equals the
retained next hidden state multiplied elementwise by `1 − terminated flag of the
previous step`; hence an environment whose previous step terminated receives an
exactly-zero hidden state, and the retained state is updated to the network output
on the fed hidden state. -/
theorem claim_C7_hidden_reset (net : (ℕ → ℕ → ℚ) → (ℕ → ℕ → ℚ))
    (a : RecurrentPPOState) (e c : ℕ) :
    (select_action_train net a).1 e c
      = a.next_hidden_state e c * (1 - a.prev_terminated e) ∧
    (a.prev_terminated e = 1 → (select_action_train net a).1 e c = 0) ∧
    (select_action_train net a).2.next_hidden_state = net (select_action_train net a).1 ∧
    (select_action_inference net a).1 e c
      = a.inference_next_hidden_state e c * (1 - a.inference_prev_terminated e) ∧
    (a.inference_prev_terminated e = 1 → (select_action_inference net a).1 e c = 0) ∧
    (select_action_inference net a).2.inference_next_hidden_state
      = net (select_action_inference net a).1 := by
  refine ⟨rfl, fun h => ?_, rfl, rfl, fun h => ?_, rfl⟩ <;>
    simp [select_action_train, select_action_inference, fedHiddenTrain,
      fedHiddenInference, h]

theorem claim_C7_witness :
    (select_action_train (fun h => h) ⟨fun _ _ => 5, fun _ => 1, fun _ _ => 7, fun _ => 1⟩).1 0 0
        = 0 ∧
    (select_action_inference (fun h => h) ⟨fun _ _ => 5, fun _ => 1, fun _ _ => 7, fun _ => 1⟩).1 0 0
        = 0 :=
  ⟨(claim_C7_hidden_reset (fun h => h)
      ⟨fun _ _ => 5, fun _ => 1, fun _ _ => 7, fun _ => 1⟩ 0 0).2.1 rfl,
   (claim_C7_hidden_reset (fun h => h)
      ⟨fun _ _ => 5, fun _ => 1, fun _ _ => 7, fun _ => 1⟩ 0 0).2.2.2.2.1 rfl⟩

/-- One epoch of the minibatch loop of `RecurrentPPO.train`: the shuffled order is
a function `p` from positions to sequence indices (`sample_sequences = torch.randperm`),
and `for i in range(num_seq // num_sequences_per_step)` slices the consecutive
chunk `sample_sequences[k*i : k*(i+1)]`. -/
def epochChunks (p : ℕ → ℕ) (n k : ℕ) : List (List ℕ) :=
  (List.range (n / k)).map fun i => (List.range k).map fun j => p (k * i + j)

/-- All chunks processed by one `train` call: the epoch loop runs once per element
of `perms`, the list of shuffled orders drawn for the successive epochs. -/
def trainChunkSteps (perms : List (ℕ → ℕ)) (n k : ℕ) : List (List ℕ) :=
  (perms.map fun p => epochChunks p n k).flatten

/-- The combined loss submitted to `train_step` for one chunk:
`loss = actor_loss + value_loss_coef * critic_loss - entropy_coef * entropy`. -/
def ppoCombinedLoss (vc ec a c ent : ℚ) : ℚ := a + vc * c - ec * ent

/-- Losses submitted across one `train` call, one per chunk, where `aL`, `cL`,
`eL` give the actor loss, critic loss and entropy the network produces on a chunk. -/
def trainLosses (perms : List (ℕ → ℕ)) (n k : ℕ) (aL cL eL : List ℕ → ℚ)
    (vc ec : ℚ) : List ℚ :=
  (trainChunkSteps perms n k).map fun ch => ppoCombinedLoss vc ec (aL ch) (cL ch) (eL ch)

/-- The Clock training-step counter after `train`: `tick_training_step` runs once
per chunk. -/
def trainingStepAfter (ts : ℤ) (perms : List (ℕ → ℕ)) (n k : ℕ) : ℤ :=
  ts + (trainChunkSteps perms n k).length

lemma epochChunks_flatten (p : ℕ → ℕ) (k : ℕ) :
    ∀ m : ℕ, ((List.range m).map fun i => (List.range k).map fun j => p (k * i + j)).flatten
      = (List.range (m * k)).map p
  | 0 => by simp
  | m + 1 => by
      rw [List.range_succ, List.map_append, List.flatten_append,
        epochChunks_flatten p k m]
      have hr : (m + 1) * k = m * k + k := by ring
      rw [hr, List.range_add, List.map_append]
      simp only [List.map_singleton, List.flatten_cons, List.flatten_nil,
        List.append_nil, List.map_map]
      congr 1
      apply List.map_congr_left
      intro j _
      simp [Function.comp]
      ring_nf

lemma trainChunkSteps_length (perms : List (ℕ → ℕ)) (n k : ℕ) :
    (trainChunkSteps perms n k).length = perms.length * (n / k) := by
  induction perms with
  | nil => simp [trainChunkSteps]
  | cons p ps ih =>
      simp only [trainChunkSteps, List.map_cons, List.flatten_cons,
        List.length_append] at ih ⊢
      rw [ih, epochChunks, List.length_map, List.length_range, List.length_cons]
      ring

/-- C4 as written is false: with `num_seq = 3` sequences, chunk size
`num_sequences_per_step = 2` and the identity shuffle, one epoch processes only
`3 / 2 = 1` chunk, the sequence at shuffled position 2 is used zero times — not
exactly once — and only one training step is taken. -/
theorem claim_C4_counterexample :
    ¬ (∀ s < 3, ((epochChunks (fun i => i) 3 2).flatten.count s = 1)) := by
  decide

/-- C4 (amended): in every `train` call the epoch loop runs exactly `epoch` times;
each epoch takes the first `(num_seq / k) * k` positions of its shuffled order and
partitions them into consecutive chunks of size `k`, each chunk receiving exactly
one optimizer step with combined loss
`actor + value_loss_coef·critic − entropy_coef·entropy` and one training-step
tick, so the counter advances by `epoch * (num_seq / k)` (floor division); when
`k` divides `num_seq` and the shuffled order is a permutation of the sequence
indices, every sequence is used exactly once in that epoch. -/
theorem claim_C4_train_loop (perms : List (ℕ → ℕ)) (n k E : ℕ) (ts : ℤ)
    (hE : perms.length = E)
    (aL cL eL : List ℕ → ℚ) (vc ec : ℚ) (p : ℕ → ℕ) (s : ℕ)
    (hdvd : k ∣ n) (hperm : ((List.range n).map p).Perm (List.range n)) (hs : s < n) :
    (trainChunkSteps perms n k).length = E * (n / k) ∧
    trainingStepAfter ts perms n k = ts + E * (n / k) ∧
    (∀ ch ∈ trainChunkSteps perms n k, ch.length = k) ∧
    (epochChunks p n k).flatten = (List.range (n / k * k)).map p ∧
    (epochChunks p n k).flatten.count s = 1 ∧
    trainLosses perms n k aL cL eL vc ec
      = (trainChunkSteps perms n k).map fun ch =>
          aL ch + vc * cL ch - ec * eL ch := by
  have hlen := trainChunkSteps_length perms n k
  have hflat : (epochChunks p n k).flatten = (List.range (n / k * k)).map p :=
    epochChunks_flatten p k (n / k)
  refine ⟨by rw [hlen, hE], ?_, ?_, hflat, ?_, rfl⟩
  · rw [trainingStepAfter, hlen, hE]
    push_cast
    ring
  · intro ch hch
    simp only [trainChunkSteps, List.mem_flatten, List.mem_map] at hch
    obtain ⟨l, ⟨q, _, hq⟩, hl⟩ := hch
    subst hq
    simp only [epochChunks, List.mem_map] at hl
    obtain ⟨i, _, hi⟩ := hl
    simp [← hi]
  · rw [hflat, Nat.div_mul_cancel hdvd]
    exact (hperm.count_eq s).trans
      (List.count_eq_one_of_mem (List.nodup_range n) (List.mem_range.2 hs))

theorem claim_C4_witness :
    (trainChunkSteps [fun i => i, fun i => i] 4 2).length = 2 * (4 / 2) ∧
    (epochChunks (fun i => 3 - i) 4 2).flatten.count 1 = 1 :=
  ⟨(claim_C4_train_loop [fun i => i, fun i => i] 4 2 2 0 rfl
      (fun _ => 0) (fun _ => 0) (fun _ => 0) 0 0 (fun i => 3 - i) 1
      ⟨2, rfl⟩ (by decide) (by decide)).1,
   (claim_C4_train_loop [fun i => i, fun i => i] 4 2 2 0 rfl
      (fun _ => 0) (fun _ => 0) (fun _ => 0) 0 0 (fun i => 3 - i) 1
      ⟨2, rfl⟩ (by decide) (by decide)).2.2.2.2.1⟩

/-- The termination test of `to_batch_sequences`:
`terminated_idxes = torch.where(terminated[env_id] > 0.5)[0]` over the float flags. -/
def terminatedFlag (v : ℕ → ℚ) (i : ℕ) : Bool := decide (v i > 1 / 2)

/-- The per-environment list of termination time indices, in increasing order. -/
def termIdxes (flag : ℕ → Bool) (n : ℕ) : List ℕ := (List.range n).filter flag

/-- The sequence-building while loop of `to_batch_sequences` for one environment:
from cursor `start`, the candidate end is `min (start + L) n`; if the next
unconsumed termination index (the head of `terms`) falls before the candidate end,
the end is clamped to one past it and the index is consumed; the hidden state at
the cursor is recorded with each emitted `(start, end)` pair. `fuel` bounds the
iteration count (the cursor strictly increases, so `fuel = n` suffices). -/
def seqLoop {H : Type} (hs : ℕ → H) (L n : ℕ) :
    ℕ → ℕ → List ℕ → List ((ℕ × ℕ) × H)
  | 0, _, _ => []
  | fuel + 1, start, [] =>
    if start < n then
      ((start, min (start + L) n), hs start) :: seqLoop hs L n fuel (min (start + L) n) []
    else []
  | fuel + 1, start, tIdx :: rest =>
    if start < n then
      if tIdx < min (start + L) n then
        ((start, tIdx + 1), hs start) :: seqLoop hs L n fuel (tIdx + 1) rest
      else
        ((start, min (start + L) n), hs start) ::
          seqLoop hs L n fuel (min (start + L) n) (tIdx :: rest)
    else []

/-- All sequences generated for one environment by `to_batch_sequences`, as
`(start, end)` index pairs paired with the recorded initial hidden state. -/
def seqRecs {H : Type} (hs : ℕ → H) (L n : ℕ) (flag : ℕ → Bool) :
    List ((ℕ × ℕ) × H) :=
  seqLoop hs L n n 0 (termIdxes flag n)

/-- Checks that a list of `(start, end)` pairs partitions `[start, n)` in order:
each pair begins where the previous one ended, is nonempty, stays within `n`, and
the final end is exactly `n`. -/
def coversB (n : ℕ) : ℕ → List (ℕ × ℕ) → Bool
  | s, [] => s == n
  | s, (a, b) :: rest => (a == s) && decide (a < b) && decide (b ≤ n) && coversB n b rest

/-- First termination index in `[s, e)`, if any. -/
def firstTermIn (flag : ℕ → Bool) (s e : ℕ) : Option ℕ :=
  (List.range' s (e - s)).find? flag

/-- The sequence end the spec prescribes for cursor `s`: the candidate end
`min (s + L) n`, clamped to one past the first termination index lying before it. -/
def seqEndFormula (flag : ℕ → Bool) (L n s : ℕ) : ℕ :=
  match firstTermIn flag s (min (s + L) n) with
  | some i => i + 1
  | none => min (s + L) n

lemma seqEndFormula_bounds (flag : ℕ → Bool) (L n s : ℕ) (hL : 1 ≤ L)
    (hsn : s < n) :
    s < seqEndFormula flag L n s ∧ seqEndFormula flag L n s ≤ min (s + L) n := by
  unfold seqEndFormula firstTermIn
  cases hf : (List.range' s (min (s + L) n - s)).find? flag with
  | none => dsimp only; omega
  | some i =>
      have hmem := List.mem_range'_1.1 (List.mem_of_find?_eq_some hf)
      dsimp only
      omega

lemma range'_split (s m n : ℕ) (h1 : s ≤ m) (h2 : m ≤ n) :
    List.range' s (n - s) = List.range' s (m - s) ++ List.range' m (n - m) := by
  have h := List.range'_append_1 s (m - s) (n - m)
  rw [show s + (m - s) = m by omega, show n - m + (m - s) = n - s by omega] at h
  exact h.symm

lemma filter_prefix_empty {flag : ℕ → Bool} {s m n tIdx : ℕ} {rest : List ℕ}
    (h1 : s ≤ m) (h2 : m ≤ n) (hm : m ≤ tIdx)
    (hterms : tIdx :: rest = (List.range' s (n - s)).filter flag) :
    (List.range' s (m - s)).filter flag = [] ∧
    tIdx :: rest = (List.range' m (n - m)).filter flag := by
  rw [range'_split s m n h1 h2, List.filter_append] at hterms
  cases hfa : (List.range' s (m - s)).filter flag with
  | nil => rw [hfa, List.nil_append] at hterms; exact ⟨rfl, hterms⟩
  | cons y ys =>
      exfalso
      rw [hfa] at hterms
      have hy : tIdx = y := by
        have hh := congrArg List.head? hterms
        simpa using hh
      have hymem : y ∈ List.range' s (m - s) :=
        (List.mem_filter.1 (hfa ▸ List.mem_cons_self y ys)).1
      have := List.mem_range'_1.1 hymem
      omega

lemma seqLoop_spec {H : Type} (hs : ℕ → H) (L n : ℕ) (hL : 1 ≤ L)
    (flag : ℕ → Bool) :
    ∀ (fuel start : ℕ) (terms : List ℕ), start ≤ n → n - start ≤ fuel →
      terms = (List.range' start (n - start)).filter flag →
      coversB n start ((seqLoop hs L n fuel start terms).map Prod.fst) = true ∧
      ∀ q ∈ seqLoop hs L n fuel start terms,
        q.1.1 < n ∧ q.1.2 = seqEndFormula flag L n q.1.1 ∧ q.2 = hs q.1.1 := by
  intro fuel
  induction fuel with
  | zero =>
      intro start terms h1 h2 _
      have hsn : start = n := by omega
      subst hsn
      rcases terms with _ | ⟨t, r⟩ <;> simp [seqLoop, coversB]
  | succ fuel ih =>
      intro start terms h1 h2 hterms
      by_cases hlt : start < n
      · have hcand1 : start < min (start + L) n := by omega
        have hcand2 : min (start + L) n ≤ n := by omega
        rcases terms with _ | ⟨tIdx, rest⟩
        · have hflag : ∀ a ∈ List.range' start (n - start), flag a = false := by
            intro a ha
            have := List.filter_eq_nil_iff.1 hterms.symm a ha
            simpa using this
          have hterms2 : ([] : List ℕ)
              = (List.range' (min (start + L) n) (n - min (start + L) n)).filter flag := by
            symm
            rw [List.filter_eq_nil_iff]
            intro a ha
            have ha2 := List.mem_range'_1.1 ha
            have : a ∈ List.range' start (n - start) := List.mem_range'_1.2 (by omega)
            simp [hflag a this]
          obtain ⟨ihc, ihq⟩ := ih (min (start + L) n) [] hcand2 (by omega) hterms2
          have hnone : (List.range' start (min (start + L) n - start)).find? flag = none := by
            rw [List.find?_eq_none]
            intro a ha
            have ha2 := List.mem_range'_1.1 ha
            have : a ∈ List.range' start (n - start) := List.mem_range'_1.2 (by omega)
            simp [hflag a this]
          constructor
          · simp only [seqLoop, if_pos hlt, List.map_cons, coversB]
            simp [hcand1, hcand2, ihc]
          · intro q hq
            simp only [seqLoop, if_pos hlt, List.mem_cons] at hq
            rcases hq with hq | hq
            · subst hq
              refine ⟨hlt, ?_, rfl⟩
              simp only [seqEndFormula, firstTermIn, hnone]
            · exact ihq q hq
        · have htm : tIdx ∈ List.range' start (n - start) ∧ flag tIdx = true := by
            have : tIdx ∈ (List.range' start (n - start)).filter flag := by
              rw [← hterms]; exact List.mem_cons_self _ _
            simpa [List.mem_filter] using this
          have htb := List.mem_range'_1.1 htm.1
          by_cases hclamp : tIdx < min (start + L) n
          · obtain ⟨hpre, hsuf⟩ :=
              filter_prefix_empty (s := start) (m := tIdx) (by omega) (by omega)
                (le_refl tIdx) hterms
            have hrange : List.range' tIdx (n - tIdx)
                = tIdx :: List.range' (tIdx + 1) (n - (tIdx + 1)) := by
              rw [show n - tIdx = (n - (tIdx + 1)) + 1 by omega, List.range'_succ]
            have hrest : rest = (List.range' (tIdx + 1) (n - (tIdx + 1))).filter flag := by
              rw [hrange, List.filter_cons_of_pos htm.2] at hsuf
              exact (List.cons_eq_cons.1 hsuf).2
            obtain ⟨ihc, ihq⟩ := ih (tIdx + 1) rest (by omega) (by omega) hrest
            have hform : seqEndFormula flag L n start = tIdx + 1 := by
              simp only [seqEndFormula, firstTermIn]
              rw [range'_split start tIdx (min (start + L) n) (by omega) (by omega),
                List.find?_append]
              have hpn : (List.range' start (tIdx - start)).find? flag = none := by
                rw [List.find?_eq_none]
                intro x hx
                have := List.filter_eq_nil_iff.1 hpre x hx
                simpa using this
              have hrange2 : List.range' tIdx (min (start + L) n - tIdx)
                  = tIdx :: List.range' (tIdx + 1) (min (start + L) n - (tIdx + 1)) := by
                rw [show min (start + L) n - tIdx
                      = (min (start + L) n - (tIdx + 1)) + 1 by omega, List.range'_succ]
              rw [hpn, hrange2, List.find?_cons_of_pos _ htm.2]
              rfl
            constructor
            · simp only [seqLoop, if_pos hlt, if_pos hclamp, List.map_cons, coversB]
              have hsl : start < tIdx + 1 := by omega
              have hln : tIdx + 1 ≤ n := by omega
              simp [hsl, hln, ihc]
            · intro q hq
              simp only [seqLoop, if_pos hlt, if_pos hclamp, List.mem_cons] at hq
              rcases hq with hq | hq
              · subst hq
                exact ⟨hlt, hform.symm, rfl⟩
              · exact ihq q hq
          · push_neg at hclamp
            obtain ⟨hpre, hsuf⟩ :=
              filter_prefix_empty (s := start) (m := min (start + L) n) (by omega)
                hcand2 hclamp hterms
            obtain ⟨ihc, ihq⟩ :=
              ih (min (start + L) n) (tIdx :: rest) hcand2 (by omega) hsuf
            have hform : seqEndFormula flag L n start = min (start + L) n := by
              simp only [seqEndFormula, firstTermIn]
              have hpn : (List.range' start (min (start + L) n - start)).find? flag
                  = none := by
                rw [List.find?_eq_none]
                intro x hx
                have := List.filter_eq_nil_iff.1 hpre x hx
                simpa using this
              rw [hpn]
            constructor
            · simp only [seqLoop, if_pos hlt, if_neg (by omega : ¬ tIdx < min (start + L) n),
                List.map_cons, coversB]
              simp [hcand1, hcand2, ihc]
            · intro q hq
              simp only [seqLoop, if_pos hlt,
                if_neg (by omega : ¬ tIdx < min (start + L) n), List.mem_cons] at hq
              rcases hq with hq | hq
              · subst hq
                exact ⟨hlt, hform.symm, rfl⟩
              · exact ihq q hq
      · have hsn : start = n := by omega
        subst hsn
        rcases terms with _ | ⟨t, r⟩ <;> simp [seqLoop, coversB, hlt]

/-- C3: for each environment, the sequences generated by `to_batch_sequences`
partition the time indices `[0, n)` in order (each sequence starts where the
previous ended and the last ends at `n`), every sequence end equals the candidate
end `min (start + L, n)` clamped to one past the first termination index before
it, every sequence has length between 1 and `L`, and the recorded initial hidden
state of each sequence is the stored hidden state at its start index. -/
theorem claim_C3_sequence_truncation {H : Type} (hs : ℕ → H) (L n : ℕ)
    (flag : ℕ → Bool) (hL : 1 ≤ L) :
    coversB n 0 ((seqRecs hs L n flag).map Prod.fst) = true ∧
    ∀ q ∈ seqRecs hs L n flag,
      q.1.2 = seqEndFormula flag L n q.1.1 ∧
      q.1.1 < q.1.2 ∧ q.1.2 ≤ q.1.1 + L ∧
      q.2 = hs q.1.1 := by
  have h0 : termIdxes flag n = (List.range' 0 (n - 0)).filter flag := by
    simp [termIdxes, List.range_eq_range']
  obtain ⟨hc, hq⟩ :=
    seqLoop_spec hs L n hL flag n 0 (termIdxes flag n) (Nat.zero_le n) (by omega) h0
  refine ⟨hc, fun q hmem => ?_⟩
  obtain ⟨hlt, hform, hhid⟩ := hq q hmem
  obtain ⟨hb1, hb2⟩ := seqEndFormula_bounds flag L n q.1.1 hL hlt
  exact ⟨hform, by omega, by omega, hhid⟩

theorem claim_C3_witness :
    coversB 6 0 ((seqRecs (fun s => s) 4 6 (fun i => i == 1)).map Prod.fst) = true ∧
    (2 : ℕ) = seqEndFormula (fun i => i == 1) 4 6 0 :=
  ⟨(claim_C3_sequence_truncation (fun s => s) 4 6 (fun i => i == 1) (by decide)).1,
   ((claim_C3_sequence_truncation (fun s => s) 4 6 (fun i => i == 1) (by decide)).2
      ((0, 2), 0) (by decide)).1⟩

end AineDRL
